import Mathlib

/-!
Verification development for the Git remote resolution core of an editor
plugin (source: plugin/sublime_text/OpenGitRepoOnWebCommand.py).

Strings are modelled as Lean lists of characters (Python str is a sequence
of Unicode code points).  Case-insensitive regex matching with ASCII
pattern literals is modelled by folding A-Z to a-z (Python re.IGNORECASE
additionally folds a few exotic Unicode letters, which no claim exercises).

External processes are modelled by an oracle assigning an outcome to each
invoked argument list; the filesystem is modelled by an oracle structure.
-/

/-! ### Character and string helpers -/

/-- ASCII lower-case folding, as used for IGNORECASE matching of the ASCII
pattern literals in the source. -/
def lowerStr (s : List Char) : List Char := s.map Char.toLower

/-- The single-quote character, written via its code point. -/
def sqChar : Char := Char.ofNat 39

/-- The double-quote character, written via its code point. -/
def dqChar : Char := Char.ofNat 34

/-- Does the lower-cased text start with the (lower-case ASCII) pattern?
Embeds an anchored case-insensitive search such as
re.search(r"^ssh://", uri, re.IGNORECASE). -/
def isPrefixOfCI (pat s : List Char) : Bool := pat.isPrefixOf (lowerStr s)

/-- Does the pattern occur as a contiguous substring?  (Scan of every
suffix, as a regex search does.) -/
def containsSub (pat : List Char) : List Char → Bool
  | [] => pat.isEmpty
  | c :: cs => pat.isPrefixOf (c :: cs) || containsSub pat cs

/-- Unanchored case-insensitive search, e.g. re.search(r"git@", uri,
re.IGNORECASE). -/
def containsCI (pat s : List Char) : Bool := containsSub pat (lowerStr s)

/-- Python str.split(sep) for a single-character separator: always returns
at least one (possibly empty) piece. -/
def pySplit (sep : Char) : List Char → List (List Char)
  | [] => [[]]
  | c :: cs =>
    match pySplit sep cs with
    | [] => [[]]
    | p :: ps => if c = sep then [] :: p :: ps else (c :: p) :: ps

/-- Python sep.join for a single-character separator. -/
def joinSep (sep : Char) : List (List Char) → List Char
  | [] => []
  | [x] => x
  | x :: y :: t => x ++ sep :: joinSep sep (y :: t)

/-- Python whitespace, as stripped by str.rstrip() (ASCII part; the rarer
Unicode space characters are not exercised by any claim). -/
def pyIsSpace (c : Char) : Bool :=
  c = ' ' || c = '\t' || c = '\n' || c = '\r' || c = '\x0b' || c = '\x0c'

/-- Python str.rstrip(): remove trailing whitespace. -/
def pyRstrip (s : List Char) : List Char := (s.reverse.dropWhile pyIsSpace).reverse

/-! ### URI normalization (Git.get_url_from_remote_uri) -/

def sshPat : List Char := ("ssh://").toList
def httpPat : List Char := ("http://").toList
def httpsPat : List Char := ("https://").toList
def gitAtPat : List Char := ("git@").toList

/-- Embeds the inner helper strip_dot_git, i.e.
re.sub(r"\.git$", "", url, re.IGNORECASE).
Note the source passes re.IGNORECASE (= 2) as the positional count
argument of re.sub, not as flags; the substitution is therefore
case-SENSITIVE (and the count of 2 is irrelevant since the anchored
pattern can match at most once).  Python's dollar anchor matches at the
very end or just before one final newline, so both positions are covered;
a trailing ".git" is removed, and a ".git" immediately before one final
newline is removed keeping the newline. -/
def strip_dot_git (url : List Char) : List Char :=
  if (".git").toList.isSuffixOf url then url.take (url.length - 4)
  else if (".git\n").toList.isSuffixOf url then url.take (url.length - 5) ++ ['\n']
  else url

/-- Embeds Git.get_url_from_remote_uri.  The source assigns url in three
INDEPENDENT if-statements (not elif), so a later match overwrites an
earlier one; uri[4:] always drops the first four characters of the whole
uri.  Finally Python's `return strip_dot_git(url) if url else None` treats
both None and the empty string as falsy. -/
def get_url_from_remote_uri (uri : List Char) : Option (List Char) :=
  -- url = None
  let url0 : Option (List Char) := none
  -- SSH (unsupported): if re.search(r"^ssh://", uri, re.IGNORECASE): url = None
  let url1 : Option (List Char) := if isPrefixOfCI sshPat uri then none else url0
  -- HTTP: if re.search(r"^https?://", uri, re.IGNORECASE): url = uri
  let url2 : Option (List Char) :=
    if isPrefixOfCI httpPat uri || isPrefixOfCI httpsPat uri then some uri else url1
  -- common providers: if re.search(r"git@", uri, re.IGNORECASE):
  --   parts = uri[4:].split(":"); host = ":".join(parts[:-1]); path = parts[-1]
  --   url = "https://{}/{}".format(host, path)
  let url3 : Option (List Char) :=
    if containsCI gitAtPat uri then
      let parts := pySplit ':' (uri.drop 4)
      let host := joinSep ':' parts.dropLast
      let path := parts.getLastD []
      some (("https://").toList ++ host ++ '/' :: path)
    else url2
  -- return strip_dot_git(url) if url else None
  match url3 with
  | some u => if u = [] then none else some (strip_dot_git u)
  | none => none

/-! ### Process Runner (Git.run)

The external process is abstracted by its outcome: it either completes
with an exit code, stdout and stderr, or exceeds the timeout (Python:
subprocess.TimeoutExpired escapes from communicate), or cannot be spawned
at all (Python: OSError/FileNotFoundError escapes from Popen). -/

inductive ProcOutcome where
  | completes (retCode : Int) (stdout stderr : List Char)
  | timesOut
  | spawnFailure
deriving DecidableEq

/-- The exceptions that can escape from Git.run: the GitException the
source raises itself on a non-zero exit code, and the two process-level
exception families that the source does NOT wrap. -/
inductive RunError where
  | gitException (message : List Char)
  | timeoutExpired
  | spawnFailure
deriving DecidableEq

/-- Characters that shlex.quote leaves unquoted (Python _find_unsafe with
re.ASCII: word characters plus at-sign, percent, plus, equals, colon,
comma, dot, slash, hyphen). -/
def shlexSafeChar (c : Char) : Bool :=
  c.isAlphanum || c = '_' || c = '@' || c = '%' || c = '+' || c = '=' ||
    c = ':' || c = ',' || c = '.' || c = '/' || c = '-'

/-- Embeds Python shlex.quote. -/
def shlex_quote (s : List Char) : List Char :=
  if s = [] then [sqChar, sqChar]
  else if s.all shlexSafeChar then s
  else sqChar :: (s.flatMap fun c =>
    if c = sqChar then [sqChar, dqChar, sqChar, dqChar, sqChar] else [c]) ++ [sqChar]

/-- The message of the GitException raised on a non-zero exit code:
"`{cmd_str}` returned code {ret_code}: {err}" where cmd_str is the
shlex-quoted, space-joined command tuple. -/
def gitExcMessage (cmdStr : List Char) (retCode : Int) (stderr : List Char) : List Char :=
  ("\x60").toList ++ cmdStr ++ ("\x60 returned code ").toList ++
    (toString retCode).toList ++ (": ").toList ++ stderr

/-- The shlex-quoted, space-joined command string built in Git.run. -/
def joinedCmd (cmdTuple : List (List Char)) : List Char :=
  joinSep ' ' (cmdTuple.map shlex_quote)

/-- Embeds Git.run for one invocation: cmd_tuple = (git_bin,) + args.
On completion the source raises GitException when `if ret_code:` is
truthy, i.e. when the code is non-zero, and otherwise returns the
rstripped stdout.  A timeout or a spawn failure escapes as-is: the source
creates no exception handler for those. -/
def run (gitBin : List Char) (args : List (List Char)) (outcome : ProcOutcome) :
    Except RunError (List Char) :=
  match outcome with
  | .spawnFailure => .error .spawnFailure
  | .timesOut => .error .timeoutExpired
  | .completes retCode out err =>
    if retCode ≠ 0 then
      .error (.gitException (gitExcMessage (joinedCmd (gitBin :: args)) retCode err))
    else .ok (pyRstrip out)

/-! ### Remote URL resolution (Git.get_remote_web_url)

The oracle maps each invoked argument list to the outcome of that external
process; within one resolution each command is invoked at most once. -/

def upstreamArgs : List (List Char) :=
  [("rev-parse").toList, ("--symbolic-full-name").toList, ("@\x7bupstream\x7d").toList]

def getUrlArgs (remote : List Char) : List (List Char) :=
  [("remote").toList, ("get-url").toList, remote]

/-- re.sub(r"^refs/remotes/", "", upstream): the anchored pattern is
replaced at most once, at the start. -/
def stripRefsRemotes (s : List Char) : List Char :=
  if ("refs/remotes/").toList.isPrefixOf s then s.drop (("refs/remotes/").toList.length) else s

/-- remote = re.sub(r"^refs/remotes/", "", upstream).split("/", 2)[0].
Element 0 of a split is the text before the first separator (the maxsplit
of 2 only affects later elements). -/
def remoteFromUpstream (upstream : List Char) : List Char :=
  (pySplit '/' (stripRefsRemotes upstream)).headD []

/-- The upstream-derivation step: run rev-parse and parse the remote name
out of the tracking ref. -/
def deriveRemote (gitBin : List Char) (oracle : List (List Char) → ProcOutcome) :
    Except RunError (List Char) :=
  match run gitBin upstreamArgs (oracle upstreamArgs) with
  | .error e => .error e
  | .ok upstream => .ok (remoteFromUpstream upstream)

/-- The try-block of Git.get_remote_web_url: any exception from a run
step propagates.  Python's `if not remote:` is falsy both for None and
for an empty string, so an explicitly passed empty remote name is also
derived from the upstream. -/
def get_remote_web_url_body (gitBin : List Char) (remote? : Option (List Char))
    (oracle : List (List Char) → ProcOutcome) : Except RunError (Option (List Char)) :=
  let remoteR : Except RunError (List Char) :=
    match remote? with
    | none => deriveRemote gitBin oracle
    | some r => if r = [] then deriveRemote gitBin oracle else .ok r
  match remoteR with
  | .error e => .error e
  | .ok remote =>
    match run gitBin (getUrlArgs remote) (oracle (getUrlArgs remote)) with
    | .error e => .error e
    | .ok remoteUri => .ok (get_url_from_remote_uri remoteUri)

/-- Embeds Git.get_remote_web_url: the surrounding handler is
`except GitException: return None` — it catches ONLY GitException; a
timeout or spawn failure keeps propagating to the caller. -/
def get_remote_web_url (gitBin : List Char) (remote? : Option (List Char))
    (oracle : List (List Char) → ProcOutcome) : Except RunError (Option (List Char)) :=
  match get_remote_web_url_body gitBin remote? oracle with
  | .error (.gitException _) => .ok none
  | r => r

/-! ### Repository detection (Git.is_in_git_repo)

The filesystem is abstracted by an oracle for realpath (which resolves
symlinks, hence is not a pure string function) and for the directory/file
tests; the path arithmetic (join, dirname) is the pure posixpath string
code. -/

structure FileSystem where
  realpath : List Char → List Char
  isdir : List Char → Bool
  isfile : List Char → Bool

/-- posixpath.join(a, b) for a second component that is a plain relative
name such as ".git": if b starts with "/" it replaces a; if a is empty or
ends with "/" they are concatenated; otherwise a "/" is inserted. -/
def pyJoin2 (a b : List Char) : List Char :=
  if b.headD ' ' = '/' then b
  else if a = [] ∨ a.getLast? = some '/' then a ++ b
  else a ++ '/' :: b

/-- Everything up to and including the last "/" of the path
(posixpath: head = p[:i] with i = p.rfind('/') + 1); empty when the path
has no slash. -/
def upToLastSlash (p : List Char) : List Char :=
  (p.reverse.dropWhile (fun c => !(c = '/'))).reverse

/-- Remove trailing slashes (posixpath: head.rstrip('/')). -/
def rstripSlashes (p : List Char) : List Char :=
  (p.reverse.dropWhile (fun c => c = '/')).reverse

/-- Embeds posixpath.dirname: keep the text up to the last slash, then
strip trailing slashes unless that text is empty or consists of slashes
only. -/
def pyDirname (p : List Char) : List Char :=
  let head := upToLastSlash p
  if head ≠ [] ∧ ¬(head.all fun c => c = '/') then rstripSlashes head else head

/-- Does path/.git exist as a directory (checkout) or a regular file
(worktree pointer)?  This is the loop body test of is_in_git_repo. -/
def hasGitEntry (fs : FileSystem) (path : List Char) : Bool :=
  fs.isdir (pyJoin2 path ((".git").toList)) || fs.isfile (pyJoin2 path ((".git").toList))

/-- The while-loop of Git.is_in_git_repo, embedded with explicit fuel
(the loop itself is `while True` with breaks).  The fuel is an embedding
device only: the termination theorem below shows the bound used by
is_in_git_repo is never exhausted. -/
def gitRepoLoop (fs : FileSystem) : Nat → List Char → List (List Char) → Option Bool
  | 0, _, _ => none
  | fuel + 1, path, visited =>
    -- if not path or path in visited: break
    if path = [] ∨ path ∈ visited then some false
    -- if os.path.isdir(path_test) or os.path.isfile(path_test): return True
    else if hasGitEntry fs path then some true
    -- visited.add(path); path = os.path.dirname(path)
    else gitRepoLoop fs fuel (pyDirname path) (path :: visited)

/-- The pre-loop step `if path: path = os.path.realpath(path)`. -/
def realpath0 (fs : FileSystem) (path : List Char) : List Char :=
  if path = [] then path else fs.realpath path

/-- Embeds Git.is_in_git_repo.  The loop is run with fuel length + 2,
which the termination theorem proves sufficient for every filesystem. -/
def is_in_git_repo (fs : FileSystem) (path : List Char) : Bool :=
  (gitRepoLoop fs ((realpath0 fs path).length + 2) (realpath0 fs path) []).getD false

/-- A concrete oracle: upstream tracking origin/main, origin pointing at a
GitHub HTTPS remote. -/
def oracleUpstreamOk : List (List Char) → ProcOutcome := fun args =>
  if args = upstreamArgs then
    .completes 0 (("refs/remotes/origin/main\n").toList) []
  else if args = getUrlArgs (("origin").toList) then
    .completes 0 (("https://github.com/acme/widgets.git").toList) []
  else .spawnFailure

/-- A concrete oracle: every git command exits non-zero (e.g. no upstream
configured). -/
def oracleAllFail : List (List Char) → ProcOutcome := fun _ =>
  .completes 1 [] (("fatal: no upstream configured").toList)

/-- A concrete filesystem: no symlinks, one repository at /home/u/repo
(its .git entry is a directory). -/
def fsDemo : FileSystem where
  realpath := fun p => p
  isdir := fun p => p == ("/home/u/repo/.git").toList
  isfile := fun _ => false

/-! ### Helper lemmas about the string operations -/

theorem lowerStr_append (a b : List Char) : lowerStr (a ++ b) = lowerStr a ++ lowerStr b :=
  List.map_append _ a b

theorem pySplit_ne_nil (sep : Char) (l : List Char) : pySplit sep l ≠ [] := by
  cases l with
  | nil => simp [pySplit]
  | cons c cs =>
    simp only [pySplit]
    cases h : pySplit sep cs with
    | nil => simp
    | cons p ps =>
      by_cases hc : c = sep <;> simp [hc]

theorem pySplit_no_sep {sep : Char} {l : List Char} (h : sep ∉ l) : pySplit sep l = [l] := by
  induction l with
  | nil => rfl
  | cons c cs ih =>
    have hc : ¬ c = sep := by
      intro e
      exact h (by rw [e]; exact List.mem_cons_self _ _)
    have h2 : sep ∉ cs := fun hm => h (List.mem_cons_of_mem c hm)
    simp [pySplit, ih h2, hc]

theorem pySplit_append_sep (sep : Char) (xs ys : List Char) :
    pySplit sep (xs ++ sep :: ys) = pySplit sep xs ++ pySplit sep ys := by
  induction xs with
  | nil =>
    show pySplit sep (sep :: ys) = [[]] ++ pySplit sep ys
    simp only [pySplit]
    cases h : pySplit sep ys with
    | nil => exact absurd h (pySplit_ne_nil sep ys)
    | cons p ps => simp
  | cons x xs ih =>
    rw [List.cons_append]
    simp only [pySplit]
    rw [ih]
    cases h : pySplit sep xs with
    | nil => exact absurd h (pySplit_ne_nil sep xs)
    | cons p ps =>
      by_cases hx : x = sep <;> simp [hx]

theorem joinSep_pySplit (sep : Char) (l : List Char) : joinSep sep (pySplit sep l) = l := by
  induction l with
  | nil => rfl
  | cons c cs ih =>
    simp only [pySplit]
    cases h : pySplit sep cs with
    | nil => exact absurd h (pySplit_ne_nil sep cs)
    | cons p ps =>
      rw [h] at ih
      by_cases hc : c = sep
      · subst hc
        simp only [if_pos rfl, joinSep]
        cases ps <;> simp_all [joinSep]
      · simp only [if_neg hc]
        cases ps with
        | nil =>
          simp only [joinSep] at ih ⊢
          exact congrArg (c :: ·) ih
        | cons q qs =>
          simp only [joinSep] at ih ⊢
          rw [List.cons_append, ih]

theorem containsSub_of_prefix {p s : List Char} (h : p <+: s) (hs : s ≠ []) :
    containsSub p s = true := by
  cases s with
  | nil => exact absurd rfl hs
  | cons c cs =>
    simp only [containsSub, Bool.or_eq_true]
    exact Or.inl (List.isPrefixOf_iff_prefix.mpr h)

theorem not_prefix_append {p X B : List Char} (hX : ¬ p <+: X)
    (hhead : ∀ c, B.head? = some c → c ∉ p) : ¬ p <+: (X ++ B) := by
  intro hcon
  rcases le_or_lt p.length X.length with hle | hlt
  · exact hX (List.prefix_of_prefix_length_le hcon (List.prefix_append X B) hle)
  · cases B with
    | nil => exact hX (by simpa using hcon)
    | cons b B' =>
      obtain ⟨t, ht⟩ := hcon
      have hb : (X ++ b :: B')[X.length]? = some b := by
        rw [List.getElem?_append_right (Nat.le_refl _)]
        simp
      rw [← ht, List.getElem?_append_left hlt] at hb
      exact hhead b rfl (List.getElem?_mem hb)

theorem containsSub_append_false {p A B : List Char} (hA : containsSub p A = false)
    (hB : containsSub p B = false) (hhead : ∀ c, B.head? = some c → c ∉ p) :
    containsSub p (A ++ B) = false := by
  induction A with
  | nil => simpa using hB
  | cons a A ih =>
    have hA' : containsSub p (a :: A) = false := hA
    simp only [containsSub, Bool.or_eq_false_iff] at hA' ⊢
    obtain ⟨h1, h2⟩ := hA'
    refine ⟨?_, ih h2⟩
    rw [Bool.eq_false_iff]
    intro hp
    rw [List.isPrefixOf_iff_prefix] at hp
    have hp' : p <+: (a :: A) ++ B := hp
    have h1' : ¬ p <+: (a :: A) := by
      intro hq
      rw [← List.isPrefixOf_iff_prefix] at hq
      rw [hq] at h1
      cases h1
    exact not_prefix_append h1' hhead hp'

theorem suffix_through_slash {p xs ys : List Char} (hp : '/' ∉ p)
    (h : p <:+ xs ++ '/' :: ys) : p <:+ ys := by
  have hys : ('/' :: ys) <:+ xs ++ '/' :: ys := List.suffix_append xs ('/' :: ys)
  rcases le_or_lt p.length ys.length with hle | hlt
  · have h2 : p <:+ '/' :: ys :=
      List.suffix_of_suffix_length_le h hys (by simp; omega)
    obtain ⟨t, ht⟩ := h2
    cases t with
    | nil =>
      simp only [List.nil_append] at ht
      have : p.length = ys.length + 1 := by rw [ht]; simp
      omega
    | cons x t' =>
      injection ht with h1 h2'
      exact ⟨t', h2'⟩
  · have h2 : ('/' :: ys) <:+ p :=
      List.suffix_of_suffix_length_le hys h (by simp; omega)
    exact absurd (List.IsSuffix.mem (List.mem_cons_self '/' ys) h2) hp

theorem strip_dot_git_eq_self {u : List Char} (h1 : ¬ (".git").toList <:+ u)
    (h2 : ¬ (".git\n").toList <:+ u) : strip_dot_git u = u := by
  have b1 : ¬ ((".git").toList.isSuffixOf u = true) := fun hb =>
    h1 (List.isSuffixOf_iff_suffix.mp hb)
  have b2 : ¬ ((".git\n").toList.isSuffixOf u = true) := fun hb =>
    h2 (List.isSuffixOf_iff_suffix.mp hb)
  rw [strip_dot_git, if_neg b1, if_neg b2]

theorem strip_dot_git_concat (x : List Char) :
    strip_dot_git (x ++ (".git").toList) = x := by
  have b1 : (".git").toList.isSuffixOf (x ++ (".git").toList) = true :=
    List.isSuffixOf_iff_suffix.mpr (List.suffix_append x _)
  have hn : (x ++ (".git").toList).length - 4 = x.length := by simp
  rw [strip_dot_git, if_pos b1, hn, List.take_left]

theorem prefix_of_append_of_le {p A B : List Char} (h : p <+: A ++ B)
    (hl : p.length ≤ A.length) : p <+: A :=
  List.prefix_of_prefix_length_le h (List.prefix_append A B) hl

/-- Any value that starts (case-insensitively) with "http" still does
after strip_dot_git, and stays non-empty. -/
theorem strip_preserves_http {v : List Char} (hv : ("http").toList <+: lowerStr v) :
    strip_dot_git v ≠ [] ∧ ("http").toList <+: lowerStr (strip_dot_git v) := by
  by_cases hb1 : (".git").toList.isSuffixOf v = true
  · obtain ⟨s, rfl⟩ := List.isSuffixOf_iff_suffix.mp hb1
    have hlen : 4 ≤ s.length := by
      by_contra hlt
      push_neg at hlt
      have e1 : (lowerStr (s ++ (".git").toList))[s.length]? = some '.' := by
        rw [lowerStr_append, List.getElem?_append_right (by simp [lowerStr])]
        simp [lowerStr]
      obtain ⟨t, ht⟩ := hv
      rw [← ht, List.getElem?_append_left (by simpa using hlt)] at e1
      exact absurd (List.getElem?_mem e1) (by decide)
    have hp : ("http").toList <+: lowerStr s := by
      rw [lowerStr_append] at hv
      exact prefix_of_append_of_le hv (by simpa [lowerStr] using hlen)
    rw [strip_dot_git, if_pos hb1]
    have hn : (s ++ (".git").toList).length - 4 = s.length := by simp
    rw [hn, List.take_left]
    refine ⟨?_, hp⟩
    intro hnil
    rw [hnil] at hlen
    simp at hlen
  · by_cases hb2 : (".git\n").toList.isSuffixOf v = true
    · obtain ⟨s, rfl⟩ := List.isSuffixOf_iff_suffix.mp hb2
      have hlen : 4 ≤ s.length := by
        by_contra hlt
        push_neg at hlt
        have e1 : (lowerStr (s ++ (".git\n").toList))[s.length]? = some '.' := by
          rw [lowerStr_append, List.getElem?_append_right (by simp [lowerStr])]
          simp [lowerStr]
        obtain ⟨t, ht⟩ := hv
        rw [← ht, List.getElem?_append_left (by simpa using hlt)] at e1
        exact absurd (List.getElem?_mem e1) (by decide)
      have hp : ("http").toList <+: lowerStr s := by
        rw [lowerStr_append] at hv
        exact prefix_of_append_of_le hv (by simpa [lowerStr] using hlen)
      rw [strip_dot_git, if_neg hb1, if_pos hb2]
      have hn : (s ++ (".git\n").toList).length - 5 = s.length := by simp
      rw [hn, List.take_left]
      refine ⟨by simp, ?_⟩
      rw [lowerStr_append]
      exact List.IsPrefix.trans hp (List.prefix_append _ _)
    · rw [strip_dot_git, if_neg hb1, if_neg hb2]
      refine ⟨?_, hv⟩
      intro hnil
      rw [hnil] at hv
      have := hv.length_le
      simp [lowerStr] at this

/-! ### Helper lemmas about the path operations -/

theorem upToLastSlash_getLast {p : List Char} (h : upToLastSlash p ≠ []) :
    (upToLastSlash p).getLast? = some '/' := by
  rw [upToLastSlash, List.getLast?_reverse]
  cases hh : (p.reverse.dropWhile fun c => !(decide (c = '/'))).head? with
  | none =>
    rw [List.head?_eq_none_iff] at hh
    rw [upToLastSlash, hh] at h
    simp at h
  | some c =>
    have hnp := List.head?_dropWhile_not (fun c => !(decide (c = '/'))) p.reverse
    rw [hh] at hnp
    simp at hnp
    rw [hnp]

theorem upToLastSlash_eq_or_lt (p : List Char) :
    upToLastSlash p = p ∨ (upToLastSlash p).length < p.length := by
  have hsuf : (p.reverse.dropWhile fun c => !(decide (c = '/'))) <:+ p.reverse :=
    List.dropWhile_suffix _
  have hle := hsuf.length_le
  rcases Nat.lt_or_ge (p.reverse.dropWhile fun c => !(decide (c = '/'))).length
      p.reverse.length with hlt | hge
  · right
    rw [upToLastSlash]
    simpa using hlt
  · left
    have heq := hsuf.eq_of_length (Nat.le_antisymm hle hge)
    rw [upToLastSlash, heq, List.reverse_reverse]

theorem rstripSlashes_lt {p : List Char} (h : p.getLast? = some '/') :
    (rstripSlashes p).length < p.length := by
  rw [List.getLast?_eq_head?_reverse] at h
  rw [rstripSlashes]
  cases hrev : p.reverse with
  | nil => rw [hrev] at h; cases h
  | cons c t =>
    rw [hrev] at h
    injection h with hc
    have hlen : p.length = t.length + 1 := by
      have h2 := congrArg List.length hrev
      simpa using h2
    rw [hc, List.dropWhile_cons_of_pos (by simp)]
    have hsuf : (t.dropWhile fun c => decide (c = '/')) <:+ t := List.dropWhile_suffix _
    have := hsuf.length_le
    simp only [List.length_reverse]
    omega

theorem rstripSlashes_all_append {r s : List Char} (hr : r.getLast? ≠ some '/')
    (hs : ∀ c ∈ s, c = '/') : rstripSlashes (r ++ s) = r := by
  have hd : (r.reverse).dropWhile (fun c => decide (c = '/')) = r.reverse := by
    cases hrev : r.reverse with
    | nil => rfl
    | cons c t =>
      have hc : ¬ (c = '/') := by
        intro e
        apply hr
        rw [List.getLast?_eq_head?_reverse, hrev, e]
        rfl
      rw [List.dropWhile_cons_of_neg (by simpa using hc)]
  rw [rstripSlashes, List.reverse_append,
    List.dropWhile_append_of_pos (by intro a ha; simp; exact hs a (List.mem_reverse.mp ha)),
    hd, List.reverse_reverse]

theorem rstripSlashes_append_of_ne {a w : List Char} (hw : rstripSlashes w ≠ []) :
    rstripSlashes (a ++ w) = a ++ rstripSlashes w := by
  have hw' : ¬ ((w.reverse.dropWhile fun c => decide (c = '/')).isEmpty = true) := by
    intro h
    rw [List.isEmpty_iff] at h
    rw [rstripSlashes, h] at hw
    simp at hw
  rw [rstripSlashes, rstripSlashes, List.reverse_append, List.dropWhile_append, if_neg hw',
    List.reverse_append, List.reverse_reverse]

theorem not_all_slash_of_last {r : List Char} (hlast : r.getLast? ≠ some '/')
    (hr : r ≠ []) (s : List Char) : ¬ (((r ++ s).all fun c => decide (c = '/')) = true) := by
  intro hall
  rw [List.all_eq_true] at hall
  cases hgl : r.getLast? with
  | none => exact hr (List.getLast?_eq_none_iff.mp hgl)
  | some c =>
    have hcm : c ∈ r ++ s :=
      List.mem_append_left s (List.mem_of_getLast?_eq_some hgl)
    have := hall c hcm
    simp at this
    rw [this] at hgl
    exact hlast hgl

theorem pyDirname_shrink (p : List Char) :
    pyDirname p = p ∨ (pyDirname p).length < p.length := by
  simp only [pyDirname]
  by_cases hcond : upToLastSlash p ≠ []
      ∧ ¬ (((upToLastSlash p).all fun c => decide (c = '/')) = true)
  · rw [if_pos hcond]
    right
    have h1 := upToLastSlash_getLast hcond.1
    have h2 := rstripSlashes_lt h1
    rcases upToLastSlash_eq_or_lt p with he | hl
    · rw [he] at h2
      rw [he]
      exact h2
    · exact Nat.lt_trans h2 hl
  · rw [if_neg hcond]
    exact upToLastSlash_eq_or_lt p

theorem pyDirname_append {r : List Char} (hr : r ≠ []) (hlast : r.getLast? ≠ some '/')
    (rest : List Char) :
    pyDirname (r ++ '/' :: rest) = r
    ∨ ∃ rest', pyDirname (r ++ '/' :: rest) = r ++ '/' :: rest'
        ∧ rest'.length < rest.length := by
  have hrev : (r ++ '/' :: rest).reverse = rest.reverse ++ '/' :: r.reverse := by
    rw [List.reverse_append, List.reverse_cons, List.append_assoc]
    rfl
  by_cases hslash : '/' ∈ rest
  · -- the tail still contains a slash: the dirname stays below r or lands on r
    have hne : rest.reverse.dropWhile (fun c => !(decide (c = '/'))) ≠ [] := by
      rw [Ne, List.dropWhile_eq_nil_iff]
      intro hall
      have := hall '/' (by simpa using hslash)
      simp at this
    have hdw : (rest.reverse ++ '/' :: r.reverse).dropWhile (fun c => !(decide (c = '/')))
        = rest.reverse.dropWhile (fun c => !(decide (c = '/'))) ++ '/' :: r.reverse := by
      rw [List.dropWhile_append, if_neg (by
        intro h
        rw [List.isEmpty_iff] at h
        exact hne h)]
    have huts : upToLastSlash (r ++ '/' :: rest)
        = (r ++ ['/']) ++ (rest.reverse.dropWhile fun c => !(decide (c = '/'))).reverse := by
      rw [upToLastSlash, hrev, hdw, List.reverse_append]
      congr 1
      simp
    have hw_last : ((rest.reverse.dropWhile fun c => !(decide (c = '/'))).reverse).getLast?
        = some '/' := by
      rw [List.getLast?_reverse]
      cases hh : (rest.reverse.dropWhile fun c => !(decide (c = '/'))).head? with
      | none =>
        rw [List.head?_eq_none_iff] at hh
        exact absurd hh hne
      | some c =>
        have hnp := List.head?_dropWhile_not (fun c => !(decide (c = '/'))) rest.reverse
        rw [hh] at hnp
        simp at hnp
        rw [hnp]
    have hw_len : ((rest.reverse.dropWhile fun c => !(decide (c = '/'))).reverse).length
        ≤ rest.length := by
      have hsuf : (rest.reverse.dropWhile fun c => !(decide (c = '/'))) <:+ rest.reverse :=
        List.dropWhile_suffix _
      have := hsuf.length_le
      simpa using this
    simp only [pyDirname]
    rw [huts]
    rw [if_pos ⟨by simp, by
      rw [List.append_assoc]
      exact not_all_slash_of_last hlast hr _⟩]
    by_cases hwall :
        rstripSlashes ((rest.reverse.dropWhile fun c => !(decide (c = '/'))).reverse) = []
    · -- everything after r is slashes once stripped: dirname is exactly r
      left
      rw [List.append_assoc]
      apply rstripSlashes_all_append hlast
      intro c hc
      rcases List.mem_append.mp hc with h | h
      · simpa using h
      · -- c is in a reversed-dropWhile block that strips to nothing: all slashes
        by_contra hcne
        have : c ∈ (rest.reverse.dropWhile fun c => !(decide (c = '/'))).reverse.reverse := by
          simpa using (List.mem_reverse.mp (by simpa using h) : c ∈ _)
        rw [rstripSlashes, List.reverse_eq_nil_iff, List.dropWhile_eq_nil_iff] at hwall
        have hcs := hwall c (by
          rw [List.reverse_reverse] at this
          simpa using (List.mem_reverse.mpr (by simpa using h)))
        simp at hcs
        exact hcne hcs
    · -- a real component remains: dirname is r/<shorter tail>
      right
      refine ⟨rstripSlashes ((rest.reverse.dropWhile fun c => !(decide (c = '/'))).reverse),
        ?_, ?_⟩
      · rw [rstripSlashes_append_of_ne hwall, List.append_assoc]
        rfl
      · exact Nat.lt_of_lt_of_le (rstripSlashes_lt hw_last) hw_len
  · -- no slash in the tail: dirname is exactly r
    left
    have hall : ∀ a ∈ rest.reverse, (fun c => !(decide (c = '/'))) a = true := by
      intro a ha
      simp only [Bool.not_eq_true', decide_eq_false_iff_not]
      intro e
      rw [e] at ha
      exact hslash (List.mem_reverse.mp ha)
    have hdw : (rest.reverse ++ '/' :: r.reverse).dropWhile (fun c => !(decide (c = '/')))
        = '/' :: r.reverse := by
      rw [List.dropWhile_append_of_pos hall, List.dropWhile_cons_of_neg (by simp)]
    have huts : upToLastSlash (r ++ '/' :: rest) = r ++ ['/'] := by
      rw [upToLastSlash, hrev, hdw]
      simp
    simp only [pyDirname]
    rw [huts, if_pos ⟨by simp, not_all_slash_of_last hlast hr _⟩]
    exact rstripSlashes_all_append hlast (by intro c hc; simpa using hc)

/-! ### Helper lemmas about the repository walk -/

/-- The walk returns true as soon as the start directory has a git
entry. -/
theorem gitRepoLoop_direct {fs : FileSystem} {r : List Char} (hr : r ≠ [])
    (hgit : hasGitEntry fs r = true) {n : Nat} (hn : 1 ≤ n) {visited : List (List Char)}
    (hv : r ∉ visited) : gitRepoLoop fs n r visited = some true := by
  obtain ⟨m, rfl⟩ : ∃ m, n = m + 1 := ⟨n - 1, by omega⟩
  rw [gitRepoLoop, if_neg (by
    intro h
    rcases h with h | h
    · exact hr h
    · exact hv h), if_pos hgit]

/-- The walk started anywhere strictly below a directory r with a git
entry (with only longer paths already visited) reaches r and returns
true. -/
theorem gitRepoLoop_reaches {fs : FileSystem} {r : List Char} (hr : r ≠ [])
    (hlast : r.getLast? ≠ some '/') (hgit : hasGitEntry fs r = true) :
    ∀ n rest visited, rest.length + 2 ≤ n →
      (∀ v ∈ visited, (r ++ '/' :: rest).length < v.length) →
      gitRepoLoop fs n (r ++ '/' :: rest) visited = some true := by
  intro n
  induction n with
  | zero => intro rest visited h; omega
  | succ n ih =>
    intro rest visited hn hvis
    rw [gitRepoLoop, if_neg (by
      intro h
      rcases h with h | h
      · simp at h
      · exact absurd (hvis _ h) (by omega))]
    by_cases hcur : hasGitEntry fs (r ++ '/' :: rest) = true
    · rw [if_pos hcur]
    · rw [if_neg hcur]
      rcases pyDirname_append hr hlast rest with hdir | ⟨rest', hdir, hlt⟩
      · rw [hdir]
        apply gitRepoLoop_direct hr hgit
        · have : rest.length + 2 ≤ n + 1 := hn
          omega
        · intro hmem
          rcases List.mem_cons.mp hmem with h | h
          · have hlt : r.length < (r ++ '/' :: rest).length := by simp
            rw [← h] at hlt
            omega
          · have h1 := hvis _ h
            have hlt : r.length < (r ++ '/' :: rest).length := by simp
            omega
      · rw [hdir]
        apply ih rest' ((r ++ '/' :: rest) :: visited) (by omega)
        intro v hv
        rcases List.mem_cons.mp hv with h | h
        · rw [h]
          simp
          omega
        · have h1 := hvis _ h
          simp only [List.length_append, List.length_cons] at h1 ⊢
          omega

/-- If no directory on the dirname chain has a git entry, the walk never
returns true. -/
theorem gitRepoLoop_ne_true {fs : FileSystem} :
    ∀ (n : Nat) (path : List Char) (visited : List (List Char)),
      (∀ k, hasGitEntry fs (pyDirname^[k] path) = false) →
      gitRepoLoop fs n path visited ≠ some true := by
  intro n
  induction n with
  | zero => intro path visited h hc; cases hc
  | succ n ih =>
    intro path visited h
    rw [gitRepoLoop]
    by_cases hbrk : path = [] ∨ path ∈ visited
    · rw [if_pos hbrk]
      intro hc
      cases hc
    · rw [if_neg hbrk, if_neg (by
        have h0 := h 0
        simp only [Function.iterate_zero, id_eq] at h0
        rw [h0]
        simp)]
      apply ih
      intro k
      have hk := h (k + 1)
      rwa [Function.iterate_succ_apply] at hk

/-- The walk always terminates within the fuel bound used by
is_in_git_repo: each step either strictly shortens the path or revisits
it, and the visited set then stops the loop. -/
theorem gitRepoLoop_total {fs : FileSystem} :
    ∀ (n : Nat) (path : List Char) (visited : List (List Char)),
      path.length + 2 ≤ n → (gitRepoLoop fs n path visited).isSome = true := by
  intro n
  induction n with
  | zero => intro path visited h; omega
  | succ n ih =>
    intro path visited hn
    rw [gitRepoLoop]
    by_cases hbrk : path = [] ∨ path ∈ visited
    · rw [if_pos hbrk]
      rfl
    · rw [if_neg hbrk]
      by_cases hcur : hasGitEntry fs path = true
      · rw [if_pos hcur]
        rfl
      · rw [if_neg hcur]
        rcases pyDirname_shrink path with he | hl
        · rw [he]
          obtain ⟨m, rfl⟩ : ∃ m, n = m + 1 := ⟨n - 1, by omega⟩
          rw [gitRepoLoop, if_pos (Or.inr (List.mem_cons_self _ _))]
          rfl
        · exact ih _ _ (by omega)

/-! ### Theorems -/

/-- C1 (counter-evidence): with no explicit remote and an upstream query
that exceeds the timeout, get_remote_web_url does NOT convert the failure
to an absent result: subprocess.TimeoutExpired is not a GitException, so
the except-clause lets it propagate to the caller. -/
theorem timeout_propagates_to_caller :
    get_remote_web_url (("git").toList) none (fun _ => ProcOutcome.timesOut)
      = .error RunError.timeoutExpired := by
  rfl

/-- C2 (counter-evidence): a URI that starts with "ssh://" but contains
"git@" is NOT mapped to an absent result: the later, independent git-at
branch overwrites the None assigned by the ssh branch and produces a
(previously stripped of "ssh:") mangled https URL. -/
theorem ssh_uri_with_gitat_not_absent :
    get_url_from_remote_uri (("ssh://git@github.com/team/proj.git").toList)
      = some (("https://///git@github.com/team/proj").toList) := by
  rfl

/-- C4 (counter-evidence): a trailing ".GIT" is not stripped.  The source
passes re.IGNORECASE as the positional count argument of re.sub, so the
strip is case-sensitive, contrary to the claim and to the flag the source
itself tries to pass. -/
theorem dot_git_strip_is_case_sensitive :
    get_url_from_remote_uri (("https://github.com/org/repo.GIT").toList)
      = some (("https://github.com/org/repo.GIT").toList) := by
  rfl

/-- C9: on exit code 0, run returns stdout with its trailing whitespace
stripped (the result is a prefix of stdout, the removed remainder is all
whitespace, and the result does not end in whitespace); on a non-zero
exit code it fails with a GitException carrying the shlex-joined command
string, the exit code and the stderr text. -/
theorem run_success_and_failure_spec :
    (∀ gitBin args out err,
      run gitBin args (.completes 0 out err) = .ok (pyRstrip out)
      ∧ (∃ ws, out = pyRstrip out ++ ws ∧ ∀ c ∈ ws, pyIsSpace c = true)
      ∧ (∀ c, (pyRstrip out).getLast? = some c → pyIsSpace c = false))
    ∧ (∀ gitBin args retCode out err, retCode ≠ 0 →
      run gitBin args (.completes retCode out err)
        = .error (.gitException (gitExcMessage (joinedCmd (gitBin :: args)) retCode err))) := by
  constructor
  · intro gitBin args out err
    refine ⟨by simp [run], ⟨(out.reverse.takeWhile pyIsSpace).reverse, ?_, ?_⟩, ?_⟩
    · conv_lhs => rw [← out.reverse_reverse]
      rw [pyRstrip, ← List.reverse_append, List.takeWhile_append_dropWhile]
    · intro c hc
      rw [List.mem_reverse] at hc
      exact List.mem_takeWhile_imp hc
    · intro c hc
      rw [pyRstrip, List.getLast?_reverse] at hc
      have h := List.head?_dropWhile_not pyIsSpace out.reverse
      rw [hc] at h
      exact h
  · intro gitBin args retCode out err hrc
    simp [run, hrc]

/-- Witness for C9 at concrete inputs. -/
theorem run_success_and_failure_spec_witness :
    run (("git").toList) [("version").toList]
        (.completes 0 (("git version 2.39.1\n").toList) [])
      = .ok (("git version 2.39.1").toList)
    ∧ run (("git").toList) [("version").toList] (.completes 1 [] (("boom").toList))
      = .error (.gitException (gitExcMessage
          (joinedCmd [("git").toList, ("version").toList]) 1 (("boom").toList))) := by
  constructor
  · have h := (run_success_and_failure_spec.1 (("git").toList) [("version").toList]
      (("git version 2.39.1\n").toList) []).1
    rw [h]
    rfl
  · exact run_success_and_failure_spec.2 (("git").toList) [("version").toList] 1 []
      (("boom").toList) (by decide)

/-- Evaluation of the git-at branch: for any URI of the shape
git@HOST:LAST with no colon in LAST, the branch rebuilds
https://HOST/LAST and the final strip is applied. -/
theorem gitat_branch_eval (host p : List Char) (hc : ':' ∉ p) :
    get_url_from_remote_uri (("git@").toList ++ (host ++ ':' :: p))
      = some (strip_dot_git (("https://").toList ++ host ++ '/' :: p)) := by
  have hgitat : containsCI gitAtPat (("git@").toList ++ (host ++ ':' :: p)) = true := by
    rw [containsCI, lowerStr_append]
    have hlow : lowerStr (("git@").toList) = ("git@").toList := by decide
    rw [hlow]
    apply containsSub_of_prefix
    · simp only [gitAtPat]
      exact List.prefix_append _ _
    · simp
  have hdrop : (("git@").toList ++ (host ++ ':' :: p)).drop 4 = host ++ ':' :: p :=
    List.drop_left' (by decide)
  have hsplit : pySplit ':' (host ++ ':' :: p) = pySplit ':' host ++ [p] := by
    rw [pySplit_append_sep, pySplit_no_sep hc]
  have hne : ¬ (("https://").toList ++ host ++ '/' :: p = []) := by simp
  simp only [get_url_from_remote_uri, hgitat, if_true, hdrop, hsplit,
    List.dropLast_concat, List.getLastD_concat, joinSep_pySplit]
  rw [if_neg hne]

/-- C5: a URI of the SCP form git@HOST:PATH, with an optional ".git"
suffix, where HOST may contain colons and PATH (the part after the last
colon) does not, normalizes to https://HOST/PATH. -/
theorem scp_uri_normalization (host path : List Char) (hcolon : ':' ∉ path)
    (hg1 : ¬ (".git").toList <:+ path) (hg2 : ¬ (".git\n").toList <:+ path) :
    get_url_from_remote_uri (("git@").toList ++ (host ++ ':' :: path))
      = some (("https://").toList ++ host ++ '/' :: path)
    ∧ get_url_from_remote_uri (("git@").toList ++ (host ++ ':' :: (path ++ (".git").toList)))
      = some (("https://").toList ++ host ++ '/' :: path) := by
  constructor
  · rw [gitat_branch_eval host path hcolon]
    congr 1
    apply strip_dot_git_eq_self
    · intro hs
      exact hg1 (suffix_through_slash (by decide) hs)
    · intro hs
      exact hg2 (suffix_through_slash (by decide) hs)
  · have h2 : ':' ∉ (path ++ (".git").toList) := by
      intro hm
      rcases List.mem_append.mp hm with h | h
      · exact hcolon h
      · exact absurd h (by decide)
    rw [gitat_branch_eval host (path ++ (".git").toList) h2]
    congr 1
    have hshape : ("https://").toList ++ host ++ '/' :: (path ++ (".git").toList)
        = (("https://").toList ++ host ++ '/' :: path) ++ (".git").toList := by
      simp
    rw [hshape, strip_dot_git_concat]

/-- Witness for C5 at a concrete host and path. -/
theorem scp_uri_normalization_witness :
    get_url_from_remote_uri
        (("git@").toList ++ (("gitlab.com").toList ++ ':' :: ("team/proj").toList))
      = some (("https://").toList ++ ("gitlab.com").toList ++ '/' :: ("team/proj").toList)
    ∧ get_url_from_remote_uri
        (("git@").toList ++
          (("gitlab.com").toList ++ ':' :: (("team/proj").toList ++ (".git").toList)))
      = some (("https://").toList ++ ("gitlab.com").toList ++ '/' :: ("team/proj").toList) :=
  scp_uri_normalization (("gitlab.com").toList) (("team/proj").toList)
    (by decide) (by decide) (by decide)

/-- Evaluation of get_url_from_remote_uri when the URI does not contain
git@ but does start (case-insensitively) with http:// or https://. -/
theorem http_branch_eval (uri : List Char)
    (hh : (isPrefixOfCI httpPat uri || isPrefixOfCI httpsPat uri) = true)
    (hg : containsCI gitAtPat uri = false) :
    get_url_from_remote_uri uri = some (strip_dot_git uri) := by
  have hne : ¬ (uri = []) := by
    intro h
    subst h
    exact absurd hh (by decide)
  simp only [get_url_from_remote_uri, hg, hh, if_true, Bool.false_eq_true, if_false]
  rw [if_neg hne]

/-- Evaluation of get_url_from_remote_uri when the URI contains git@
(the last assignment wins, whatever the other two branches did). -/
theorem get_url_eval_gitat (uri : List Char) (hgit : containsCI gitAtPat uri = true) :
    get_url_from_remote_uri uri
      = some (strip_dot_git (("https://").toList
          ++ joinSep ':' (pySplit ':' (uri.drop 4)).dropLast
          ++ '/' :: (pySplit ':' (uri.drop 4)).getLastD [])) := by
  have hne : ¬ (("https://").toList
      ++ joinSep ':' (pySplit ':' (uri.drop 4)).dropLast
      ++ '/' :: (pySplit ':' (uri.drop 4)).getLastD [] = []) := by simp
  simp only [get_url_from_remote_uri, hgit, if_true]
  rw [if_neg hne]

/-- Evaluation of get_url_from_remote_uri when no branch matches: the
result is absent (the ssh branch, matching or not, leaves None). -/
theorem get_url_eval_other (uri : List Char) (hgit : containsCI gitAtPat uri = false)
    (hh : (isPrefixOfCI httpPat uri || isPrefixOfCI httpsPat uri) = false) :
    get_url_from_remote_uri uri = none := by
  simp only [get_url_from_remote_uri, hgit, hh]
  cases hssh : isPrefixOfCI sshPat uri <;> simp

/-- The lower-cased form of a value built by the git-at branch starts
with "http". -/
theorem http_prefix_of_https_build (J L : List Char) :
    ("http").toList <+: lowerStr (("https://").toList ++ J ++ '/' :: L) := by
  rw [lowerStr_append, lowerStr_append]
  have h0 : ("http").toList <+: lowerStr (("https://").toList) := by decide
  exact (h0.trans (List.prefix_append _ _)).trans (List.prefix_append _ _)

/-- A URI of the shape https://HOST/PATH passes the case-insensitive
https test. -/
theorem https_ci_prefix_build (J L : List Char) :
    isPrefixOfCI httpsPat (("https://").toList ++ J ++ '/' :: L) = true := by
  rw [isPrefixOfCI, lowerStr_append, lowerStr_append, List.isPrefixOf_iff_prefix]
  have h0 : httpsPat <+: lowerStr (("https://").toList) := by decide
  exact (h0.trans (List.prefix_append _ _)).trans (List.prefix_append _ _)

/-- C3 (counter-evidence): an https URI that contains git@ is NOT passed
through unchanged: the later, independent git-at branch rewrites it,
dropping the first four characters "http" of the scheme. -/
theorem http_passthrough_counterexample :
    get_url_from_remote_uri (("https://git@github.com/org/repo").toList)
      = some (("https://s///git@github.com/org/repo").toList)
    ∧ (("https://s///git@github.com/org/repo").toList)
        ≠ (("https://git@github.com/org/repo").toList) :=
  ⟨rfl, by decide⟩

/-- C3 (amended): a URI that starts with http:// or https://
(case-insensitively) and does not contain git@ (case-insensitively) is
returned as-is except for the trailing-".git" strip the code performs. -/
theorem http_uri_passthrough (uri : List Char)
    (hh : (isPrefixOfCI httpPat uri || isPrefixOfCI httpsPat uri) = true)
    (hg : containsCI gitAtPat uri = false) :
    get_url_from_remote_uri uri = some (strip_dot_git uri) :=
  http_branch_eval uri hh hg

/-- Witness for the amended C3 at a concrete URI. -/
theorem http_uri_passthrough_witness :
    get_url_from_remote_uri (("http://example.com/x.git").toList)
      = some (("http://example.com/x").toList) := by
  have h := http_uri_passthrough (("http://example.com/x.git").toList) (by rfl) (by rfl)
  rw [h]
  rfl

/-- C6 (counter-evidence): for HOST = "git@example.com" and PATH = "a"
the URI https://HOST/PATH is not normalized to itself: the git-at branch
rewrites it into a mangled URL. -/
theorem https_gitat_counterexample :
    get_url_from_remote_uri (("https://git@example.com/a").toList)
      = some (("https://s///git@example.com/a").toList)
    ∧ (("https://s///git@example.com/a").toList)
        ≠ (("https://git@example.com/a").toList) :=
  ⟨rfl, by decide⟩

/-- C6 (amended): for every URI https://HOST/PATH that contains no git@
(case-insensitively) and does not end in ".git" (nor in ".git" followed
by a final newline), normalization returns it exactly, also for the
variant with a ".git" suffix appended, and normalizing the output again
returns the same output (idempotence). -/
theorem https_normalization_idempotent (host path : List Char)
    (hng : containsCI gitAtPat (("https://").toList ++ host ++ '/' :: path) = false)
    (h1 : ¬ (".git").toList <:+ (("https://").toList ++ host ++ '/' :: path))
    (h2 : ¬ (".git\n").toList <:+ (("https://").toList ++ host ++ '/' :: path)) :
    get_url_from_remote_uri (("https://").toList ++ host ++ '/' :: path)
      = some (("https://").toList ++ host ++ '/' :: path)
    ∧ get_url_from_remote_uri ((("https://").toList ++ host ++ '/' :: path) ++ (".git").toList)
      = some (("https://").toList ++ host ++ '/' :: path)
    ∧ (∀ out,
        get_url_from_remote_uri (("https://").toList ++ host ++ '/' :: path) = some out →
        get_url_from_remote_uri out = some out) := by
  have hpre : isPrefixOfCI httpsPat (("https://").toList ++ host ++ '/' :: path) = true :=
    https_ci_prefix_build host path
  have hh : (isPrefixOfCI httpPat (("https://").toList ++ host ++ '/' :: path)
      || isPrefixOfCI httpsPat (("https://").toList ++ host ++ '/' :: path)) = true := by
    rw [hpre]
    simp
  have hc1 : get_url_from_remote_uri (("https://").toList ++ host ++ '/' :: path)
      = some (("https://").toList ++ host ++ '/' :: path) := by
    rw [http_branch_eval _ hh hng]
    rw [strip_dot_git_eq_self h1 h2]
  have hg2 : containsCI gitAtPat
      ((("https://").toList ++ host ++ '/' :: path) ++ (".git").toList) = false := by
    rw [containsCI, lowerStr_append]
    simp only [containsCI] at hng
    apply containsSub_append_false hng
    · have hl : lowerStr ((".git").toList) = (".git").toList := by decide
      rw [hl]
      decide
    · intro c hcx
      have hl : lowerStr ((".git").toList) = (".git").toList := by decide
      rw [hl] at hcx
      simp at hcx
      subst hcx
      decide
  have hpre2 : isPrefixOfCI httpsPat
      ((("https://").toList ++ host ++ '/' :: path) ++ (".git").toList) = true := by
    rw [isPrefixOfCI, lowerStr_append, List.isPrefixOf_iff_prefix]
    rw [isPrefixOfCI, List.isPrefixOf_iff_prefix] at hpre
    exact hpre.trans (List.prefix_append _ _)
  have hh2 : (isPrefixOfCI httpPat ((("https://").toList ++ host ++ '/' :: path) ++ (".git").toList)
      || isPrefixOfCI httpsPat ((("https://").toList ++ host ++ '/' :: path) ++ (".git").toList))
      = true := by
    rw [hpre2]
    simp
  have hc2 : get_url_from_remote_uri
      ((("https://").toList ++ host ++ '/' :: path) ++ (".git").toList)
      = some (("https://").toList ++ host ++ '/' :: path) := by
    rw [http_branch_eval _ hh2 hg2, strip_dot_git_concat]
  refine ⟨hc1, hc2, ?_⟩
  intro out hout
  rw [hc1] at hout
  injection hout with hout'
  subst hout'
  exact hc1

/-- Witness for the amended C6 at a concrete host and path. -/
theorem https_normalization_idempotent_witness :
    get_url_from_remote_uri
        (("https://").toList ++ ("github.com").toList ++ '/' :: ("acme/widgets").toList)
      = some (("https://").toList ++ ("github.com").toList ++ '/' :: ("acme/widgets").toList)
    ∧ get_url_from_remote_uri
        ((("https://").toList ++ ("github.com").toList ++ '/' :: ("acme/widgets").toList)
          ++ (".git").toList)
      = some (("https://").toList ++ ("github.com").toList ++ '/' :: ("acme/widgets").toList) := by
  have h := https_normalization_idempotent (("github.com").toList) (("acme/widgets").toList)
    (by decide) (by decide) (by decide)
  exact ⟨h.1, h.2.1⟩

/-- C10: normalization never yields an empty string: every produced value
starts, case-insensitively, with "http". -/
theorem normalization_result_http_or_absent (uri u : List Char)
    (h : get_url_from_remote_uri uri = some u) :
    u ≠ [] ∧ ("http").toList <+: lowerStr u := by
  by_cases hgit : containsCI gitAtPat uri = true
  · rw [get_url_eval_gitat uri hgit] at h
    injection h with h'
    subst h'
    exact strip_preserves_http (http_prefix_of_https_build _ _)
  · have hgit' : containsCI gitAtPat uri = false := by
      cases hcc : containsCI gitAtPat uri
      · rfl
      · exact absurd hcc hgit
    by_cases hh : (isPrefixOfCI httpPat uri || isPrefixOfCI httpsPat uri) = true
    · rw [http_branch_eval uri hh hgit'] at h
      injection h with h'
      subst h'
      apply strip_preserves_http
      rcases Bool.or_eq_true_iff.mp hh with hp | hp
      · rw [isPrefixOfCI, List.isPrefixOf_iff_prefix] at hp
        exact List.IsPrefix.trans (by decide : ("http").toList <+: httpPat) hp
      · rw [isPrefixOfCI, List.isPrefixOf_iff_prefix] at hp
        exact List.IsPrefix.trans (by decide : ("http").toList <+: httpsPat) hp
    · have hh' : (isPrefixOfCI httpPat uri || isPrefixOfCI httpsPat uri) = false := by
        cases hcc : (isPrefixOfCI httpPat uri || isPrefixOfCI httpsPat uri)
        · rfl
        · exact absurd hcc hh
      rw [get_url_eval_other uri hgit' hh'] at h
      cases h

/-- Witness for C10 at a concrete URI. -/
theorem normalization_result_http_or_absent_witness :
    (("https://github.com/a/b").toList ≠ ([] : List Char))
    ∧ ("http").toList <+: lowerStr (("https://github.com/a/b").toList) :=
  normalization_result_http_or_absent (("git@github.com:a/b").toList)
    (("https://github.com/a/b").toList) (by rfl)

/-- C7: when no remote is supplied, the remote used for the get-url step
is exactly the upstream ref with the "refs/remotes/" prefix stripped and
cut at the first slash (calling with no remote is then interchangeable
with passing that derived name explicitly); and when the upstream query
exits non-zero, the result is an absent value for EVERY oracle — in
particular no remote get-url call with any default name can influence the
result, so there is no fallback. -/
theorem remote_derivation_no_fallback :
    (∀ gitBin oracle out err,
      oracle upstreamArgs = .completes 0 out err →
      get_remote_web_url gitBin none oracle
        = get_remote_web_url gitBin (some (remoteFromUpstream (pyRstrip out))) oracle)
    ∧ (∀ gitBin oracle retCode out err, retCode ≠ 0 →
      oracle upstreamArgs = .completes retCode out err →
      get_remote_web_url gitBin none oracle = .ok none) := by
  constructor
  · intro gitBin oracle out err h
    have hd : deriveRemote gitBin oracle = .ok (remoteFromUpstream (pyRstrip out)) := by
      simp [deriveRemote, h, run]
    by_cases h0 : remoteFromUpstream (pyRstrip out) = [] <;>
      simp [get_remote_web_url, get_remote_web_url_body, hd, h0]
  · intro gitBin oracle retCode out err hrc h
    simp [get_remote_web_url, get_remote_web_url_body, deriveRemote, h, run, hrc]

/-- Witness for C7 at concrete oracles. -/
theorem remote_derivation_no_fallback_witness :
    get_remote_web_url (("git").toList) none oracleUpstreamOk
      = get_remote_web_url (("git").toList)
          (some (remoteFromUpstream (pyRstrip (("refs/remotes/origin/main\n").toList))))
          oracleUpstreamOk
    ∧ get_remote_web_url (("git").toList) none oracleAllFail = .ok none := by
  constructor
  · exact remote_derivation_no_fallback.1 (("git").toList) oracleUpstreamOk
      (("refs/remotes/origin/main\n").toList) [] (by rfl)
  · exact remote_derivation_no_fallback.2 (("git").toList) oracleAllFail 1 []
      (("fatal: no upstream configured").toList) (by decide) (by rfl)

/-- C8: repository detection returns true for a directory whose .git
entry is a directory or a regular file (first conjunct), and for every
directory strictly below such a directory (second conjunct: the
canonicalized path splits as r/rest for a canonical r — non-empty, no
trailing slash — holding the entry); it returns false when no directory
on the dirname chain up to the root has such an entry (third conjunct);
and the while-loop always terminates within the fuel bound, for every
filesystem, because every step either strictly shortens the path or
revisits a path recorded in the visited set (fourth conjunct). -/
theorem is_in_git_repo_spec :
    (∀ fs path, path ≠ [] → fs.realpath path ≠ [] →
      hasGitEntry fs (fs.realpath path) = true → is_in_git_repo fs path = true)
    ∧ (∀ fs path r rest, path ≠ [] → fs.realpath path = r ++ '/' :: rest →
      r ≠ [] → r.getLast? ≠ some '/' → hasGitEntry fs r = true →
      is_in_git_repo fs path = true)
    ∧ (∀ fs path,
      (∀ k, hasGitEntry fs (pyDirname^[k] (realpath0 fs path)) = false) →
      is_in_git_repo fs path = false)
    ∧ (∀ fs path,
      (gitRepoLoop fs ((realpath0 fs path).length + 2)
        (realpath0 fs path) []).isSome = true) := by
  refine ⟨?_, ?_, ?_, ?_⟩
  · intro fs path hp hrp hgit
    rw [is_in_git_repo]
    have h0 : realpath0 fs path = fs.realpath path := by rw [realpath0, if_neg hp]
    rw [h0, gitRepoLoop_direct hrp hgit (by omega) (by simp)]
    rfl
  · intro fs path r rest hp hreal hr hlast hgit
    rw [is_in_git_repo]
    have h0 : realpath0 fs path = r ++ '/' :: rest := by rw [realpath0, if_neg hp, hreal]
    rw [h0, gitRepoLoop_reaches hr hlast hgit _ rest []
      (by simp only [List.length_append, List.length_cons]; omega) (by simp)]
    rfl
  · intro fs path hall
    rw [is_in_git_repo]
    cases hloop : gitRepoLoop fs ((realpath0 fs path).length + 2) (realpath0 fs path) [] with
    | none => rfl
    | some b =>
      cases b with
      | false => rfl
      | true => exact absurd hloop (gitRepoLoop_ne_true _ _ _ hall)
  · intro fs path
    exact gitRepoLoop_total _ _ _ (by omega)

/-- Witness for C8 on a concrete filesystem: a subdirectory of the
repository is detected, and a path with no repository above it is
rejected. -/
theorem is_in_git_repo_spec_witness :
    is_in_git_repo fsDemo (("/home/u/repo/sub").toList) = true
    ∧ is_in_git_repo fsDemo (("/tmp/elsewhere").toList) = false := by
  constructor
  · exact is_in_git_repo_spec.2.1 fsDemo (("/home/u/repo/sub").toList)
      (("/home/u/repo").toList) (("sub").toList)
      (by decide) (by decide) (by decide) (by decide) (by rfl)
  · apply is_in_git_repo_spec.2.2.1 fsDemo (("/tmp/elsewhere").toList)
    intro k
    have hfix : ∀ m, pyDirname^[m] (("/").toList) = ("/").toList := by
      intro m
      induction m with
      | zero => rfl
      | succ m ih =>
        rw [Function.iterate_succ_apply', ih]
        decide
    match k with
    | 0 => decide
    | 1 => decide
    | 2 => decide
    | (m + 3) =>
      rw [Function.iterate_add_apply,
        show pyDirname^[3] (realpath0 fsDemo (("/tmp/elsewhere").toList))
          = ("/").toList from by decide,
        hfix m]
      decide
